import Mathlib

/-!
Verification of the codebase-snapshot tools
(`codebase_snapshot.py` and `docs_pack.py`).

The two scripts share (near-duplicate copies of) four components:

* a documentation-literal extractor (`extract_module_docstring` with a
  token-scanning fallback `extract_module_docstring_fallback`),
* a text truncator (`truncate` / `truncate_block`),
* an exclusion filter (`_should_skip` / `_matches_any_glob`), and
* a deterministic tree renderer (`build_tree_lines`).

This file gives a shallow embedding of those components and proves or
refutes the frozen claims about them.  Python strings are modelled as
`String` / `List Char` (Python `len` counts code points, as does
`List.length` on `String.data`); Python `int` arguments are modelled as
`Int` with Python slice semantics; Python calls into the standard
library (`str.splitlines`, `str.strip`, `pathlib.PurePosixPath.match`,
`fnmatch.fnmatchcase`) are modelled faithfully from their documented
(and CPython-source) behaviour.  Exceptions that can escape a component
are modelled with `Except Unit`.
-/

namespace Snapshot

/-! ### Python character classes

`pyIsSpaceChar` models Python `str.isspace` / the character set removed
by `str.strip()` and `str.rstrip()`.  `isLineBreakChar` models the set
of line boundaries used by `str.splitlines`.  Every line boundary is
also whitespace.
-/

/-- Characters stripped by Python `str.strip()` (Unicode whitespace). -/
def pyIsSpaceChar (c : Char) : Bool :=
  c.toNat = 9 || c.toNat = 10 || c.toNat = 11 || c.toNat = 12 || c.toNat = 13 ||
  c.toNat = 28 || c.toNat = 29 || c.toNat = 30 || c.toNat = 31 || c.toNat = 32 ||
  c.toNat = 133 || c.toNat = 160 || c.toNat = 0x1680 ||
  (0x2000 ≤ c.toNat && c.toNat ≤ 0x200a) ||
  c.toNat = 0x2028 || c.toNat = 0x2029 || c.toNat = 0x202f ||
  c.toNat = 0x205f || c.toNat = 0x3000

/-- Line boundaries recognised by Python `str.splitlines`
(`\n`, `\v`, `\f`, `\r`, `\x1c`, `\x1d`, `\x1e`, `\x85`, ` `, ` `;
`\r\n` is treated as a single boundary by `breakLine` below). -/
def isLineBreakChar (c : Char) : Bool :=
  c.toNat = 10 || c.toNat = 11 || c.toNat = 12 || c.toNat = 13 ||
  c.toNat = 28 || c.toNat = 29 || c.toNat = 30 || c.toNat = 133 ||
  c.toNat = 0x2028 || c.toNat = 0x2029

theorem pyIsSpaceChar_of_isLineBreakChar {c : Char} (h : isLineBreakChar c = true) :
    pyIsSpaceChar c = true := by
  simp only [isLineBreakChar, Bool.or_eq_true, decide_eq_true_eq] at h
  simp only [pyIsSpaceChar, Bool.or_eq_true, decide_eq_true_eq, Bool.and_eq_true]
  omega

/-! ### Python string primitives on `List Char` -/

/-- Remove trailing characters satisfying `p` (the tail end of Python
`str.strip(chars)` / `str.rstrip()`). -/
def pyDropTrailing (p : Char → Bool) (l : List Char) : List Char :=
  (l.reverse.dropWhile p).reverse

/-- Python `str.strip(chars)`: drop the characters satisfying `p` from
both ends. -/
def pyStripCore (p : Char → Bool) (l : List Char) : List Char :=
  pyDropTrailing p (l.dropWhile p)

/-- Python `s.strip("\n")` on strings. -/
def stripNlStr (s : String) : String :=
  ⟨pyStripCore (fun c => c == '\n') s.data⟩

/-- Python `s.strip()` on strings. -/
def pyStripStr (s : String) : String :=
  ⟨pyStripCore pyIsSpaceChar s.data⟩

/-- Python `s.rstrip()` on `List Char`. -/
def rstripCore (l : List Char) : List Char :=
  pyDropTrailing pyIsSpaceChar l

/-- Python slice `l[:n]` (a negative `n` counts from the end). -/
def pyListSlice (n : Int) (l : List α) : List α :=
  if 0 ≤ n then l.take n.toNat else l.take ((l.length : Int) + n).toNat

/-- Split off the first line: returns the line's characters and the
remainder after its terminator (`\r\n` counts as one terminator).
Helper for `pySplitlinesCore`. -/
def breakLine : List Char → List Char × List Char
  | [] => ([], [])
  | c :: rest =>
    if c = '\r' ∧ rest.head? = some '\n' then ([], rest.tail)
    else if isLineBreakChar c then ([], rest)
    else ((c :: (breakLine rest).1, (breakLine rest).2))

theorem breakLine_snd_le : ∀ (c : Char) (rest : List Char),
    (breakLine (c :: rest)).2.length ≤ rest.length := by
  intro c rest
  induction rest generalizing c with
  | nil =>
    rw [breakLine]
    split_ifs <;> simp [breakLine]
  | cons d tl ih =>
    rw [breakLine]
    split_ifs with h1 h2
    · exact Nat.le_succ _
    · exact Nat.le_refl _
    · exact Nat.le_succ_of_le (ih d)

theorem breakLine_snd_lt (c : Char) (rest : List Char) :
    (breakLine (c :: rest)).2.length < (c :: rest).length := by
  have := breakLine_snd_le c rest
  simp only [List.length_cons]
  omega

/-- Structural worker for `pySplitlinesCore`.  The fuel argument makes
the recursion structural (so that concrete inputs evaluate inside the
kernel); `breakLine` consumes at least one character per step, so a
fuel of `l.length` always suffices and the `0` case is unreachable. -/
def splitlinesFuel : Nat → List Char → List (List Char)
  | _, [] => []
  | 0, _ :: _ => []
  | n + 1, c :: cs =>
    (breakLine (c :: cs)).1 :: splitlinesFuel n (breakLine (c :: cs)).2

/-- Python `str.splitlines` on `List Char`: repeatedly split off the
first line with `breakLine`. -/
def pySplitlinesCore (l : List Char) : List (List Char) :=
  splitlinesFuel l.length l

theorem splitlinesFuel_congr :
    ∀ (n m : Nat) (l : List Char), l.length ≤ n → l.length ≤ m →
      splitlinesFuel n l = splitlinesFuel m l := by
  intro n
  induction n with
  | zero =>
    intro m l hn hm
    cases l with
    | nil => cases m <;> rfl
    | cons c cs => simp at hn
  | succ n ih =>
    intro m l hn hm
    cases l with
    | nil => cases m <;> rfl
    | cons c cs =>
      cases m with
      | zero => simp at hm
      | succ m =>
        show (breakLine (c :: cs)).1 :: splitlinesFuel n (breakLine (c :: cs)).2
            = (breakLine (c :: cs)).1 :: splitlinesFuel m (breakLine (c :: cs)).2
        have hlt := breakLine_snd_lt c cs
        simp only [List.length_cons] at hn hm hlt
        exact congrArg _ (ih m _ (by omega) (by omega))

/-- Python `str.splitlines` on strings. -/
def pySplitlines (s : String) : List String :=
  (pySplitlinesCore s.data).map (fun l => ⟨l⟩)

/-- Python `"\n".join(lines)` on `List Char`. -/
def joinNl : List (List Char) → List Char
  | [] => []
  | [l] => l
  | l :: ls => l ++ '\n' :: joinNl ls

/-! ### The text truncator

Python source (identical in both scripts up to the function name
`truncate_block` / `truncate`):

```
def truncate_block(text, max_lines, max_chars):
    lines = text.splitlines()
    if len(lines) > max_lines:
        lines = lines[:max_lines] + ["… (truncated)"]
    out = "\n".join(lines)
    if len(out) > max_chars:
        out = out[: max_chars - 20].rstrip() + "\n… (truncated)"
    return out
```
-/

/-- The truncation marker line, 13 characters (the ellipsis is one code
point). -/
def truncMarker : List Char := "… (truncated)".data

/-- Line-count stage of the truncator: `lines[:max_lines]` plus the
marker line when there are more than `max_lines` lines. -/
def lineTrunc (max_lines : Int) (lines : List (List Char)) : List (List Char) :=
  if max_lines < (lines.length : Int) then pyListSlice max_lines lines ++ [truncMarker]
  else lines

/-- Character-count stage of the truncator:
`out[: max_chars - 20].rstrip() + "\n… (truncated)"` when `out` is
longer than `max_chars`. -/
def charTrunc (max_chars : Int) (out : List Char) : List Char :=
  if max_chars < (out.length : Int) then
    rstripCore (pyListSlice (max_chars - 20) out) ++ '\n' :: truncMarker
  else out

/-- The truncator on `List Char`. -/
def truncCore (text : List Char) (max_lines max_chars : Int) : List Char :=
  charTrunc max_chars (joinNl (lineTrunc max_lines (pySplitlinesCore text)))

/-- Python `truncate(text, max_lines, max_chars)` from `docs_pack.py`. -/
def truncate (text : String) (max_lines max_chars : Int) : String :=
  ⟨truncCore text.data max_lines max_chars⟩

/-- Same function under its `codebase_snapshot.py` name. -/
abbrev truncate_block := truncate

/-! ### The exclusion filter

Python source (identical in both scripts):

```
def _matches_any_glob(rel_path, globs):
    p = Path(rel_path)
    return any(p.match(g) for g in globs)

def _should_skip(rel_path, is_dir, exclude_dirs, exclude_globs):
    if any(part in exclude_dirs for part in rel_path.parts):
        return True
    if not is_dir and _matches_any_glob(str(rel_path), exclude_globs):
        return True
    return False
```

The paths the scripts pass here are relative (`p.relative_to(root)`),
so we model a path by its component list (`rel_path.parts`;
`Path(str(rel_path))` re-parses to the same components).
`PurePosixPath.match` (CPython 3.11) parses the pattern into
components, raises `ValueError` on a pattern with no components,
refuses an absolute pattern against a relative path (the roots
differ), and otherwise matches the pattern components against the
TRAILING components of the path — right-anchored — each with
`fnmatch.fnmatchcase`.  A `**` in `Path.match` behaves like `*`
(single component).
-/

/-- Scan a bracket expression for its closing `]`: the set's characters
and the remaining pattern, or `none` when unterminated. -/
def splitBracket : List Char → Option (List Char × List Char)
  | [] => none
  | ']' :: rest => some ([], rest)
  | c :: rest =>
    match splitBracket rest with
    | none => none
    | some (cls, rem) => some (c :: cls, rem)

/-- Membership of a character in a bracket set (with `a-z` ranges). -/
def inCharSet : List Char → Char → Bool
  | a :: '-' :: b :: rest, c => decide (a ≤ c ∧ c ≤ b) || inCharSet rest c
  | a :: rest, c => (a == c) || inCharSet rest c
  | [], _ => false

/-- Parse the body of a bracket expression starting after `[`: returns
(negated, set characters, remaining pattern), or `none` if the bracket
is unterminated.  Mirrors `fnmatch.translate`: a leading `!` negates,
and a `]` right after `[` or `[!` is a literal member of the set. -/
def parseBracket (ps : List Char) : Option (Bool × List Char × List Char) :=
  match ps with
  | '!' :: r =>
    (match r with
     | ']' :: r2 =>
       (match splitBracket r2 with
        | none => none
        | some (cls, rest) => some (true, ']' :: cls, rest))
     | _ =>
       (match splitBracket r with
        | none => none
        | some (cls, rest) => some (true, cls, rest)))
  | _ =>
    (match ps with
     | ']' :: r2 =>
       (match splitBracket r2 with
        | none => none
        | some (cls, rest) => some (false, ']' :: cls, rest))
     | _ =>
       (match splitBracket ps with
        | none => none
        | some (cls, rest) => some (false, cls, rest)))

/-- Structural worker for glob matching of one pattern against one
string (`fnmatch.fnmatchcase` semantics: `*` and `?` wildcards,
`[...]`/`[!...]` sets, an unterminated `[` is a literal).  Every
recursive call shrinks `pattern.length + s.length`, so the fuel used by
`fnmatchcase` below always suffices and the `0` case is unreachable;
the fuel only makes the recursion structural so that concrete inputs
evaluate inside the kernel. -/
def globMatchFuel : Nat → List Char → List Char → Bool
  | 0, _, _ => false
  | _ + 1, [], s => s.isEmpty
  | n + 1, '*' :: ps, s =>
    globMatchFuel n ps s ||
      (match s with
       | [] => false
       | _ :: cs => globMatchFuel n ('*' :: ps) cs)
  | n + 1, '?' :: ps, s =>
    (match s with
     | [] => false
     | _ :: cs => globMatchFuel n ps cs)
  | n + 1, '[' :: ps, s =>
    (match parseBracket ps with
     | none =>
       (match s with
        | '[' :: cs => globMatchFuel n ps cs
        | _ => false)
     | some (neg, cls, rest) =>
       (match s with
        | [] => false
        | c :: cs => (inCharSet cls c != neg) && globMatchFuel n rest cs))
  | n + 1, p :: ps, s =>
    (match s with
     | [] => false
     | c :: cs => (p == c) && globMatchFuel n ps cs)

/-- Python `fnmatch.fnmatchcase(name, pat)`. -/
def fnmatchcase (name pat : String) : Bool :=
  globMatchFuel (pat.data.length + name.data.length + 1) pat.data name.data

/-- Split a string on `/` into raw components. -/
def splitSlashCore : List Char → List (List Char)
  | [] => [[]]
  | '/' :: rest => [] :: splitSlashCore rest
  | c :: rest =>
    match splitSlashCore rest with
    | [] => [[c]]
    | h :: t => (c :: h) :: t

/-- The components of a path or pattern string, as
`pathlib.PurePosixPath` parses them: split on `/`, dropping empty
components and `.`. -/
def toParts (s : String) : List String :=
  ((splitSlashCore s.data).map (fun l => (⟨l⟩ : String))).filter
    (fun p => decide (p ≠ "" ∧ p ≠ "."))

/-- Whether the string begins with a path separator (an absolute POSIX
path or pattern, which carries a root). -/
def hasRootSlash (s : String) : Bool :=
  s.data.head? == some '/'

/-- `PurePosixPath(relParts).match(pattern)` for a relative path given
by its components: `ValueError` (modelled `.error ()`) on a pattern
with no components; an absolute pattern never matches a relative path;
otherwise the pattern components match the trailing path components,
right-aligned, each via `fnmatch.fnmatchcase`. -/
def pathMatchParts (relParts : List String) (pattern : String) : Except Unit Bool :=
  let pp := toParts pattern
  if pp.isEmpty then .error ()
  else if hasRootSlash pattern then .ok false
  else if relParts.length < pp.length then .ok false
  else .ok ((relParts.reverse.zip pp.reverse).all (fun pr => fnmatchcase pr.1 pr.2))

/-- `_matches_any_glob(str(rel_path), globs)`: short-circuiting `any`
of `Path(rel_path).match(g)`, with `Path.match` exceptions
propagating. -/
def _matches_any_glob (relParts : List String) : List String → Except Unit Bool
  | [] => .ok false
  | g :: gs =>
    match pathMatchParts relParts g with
    | .error u => .error u
    | .ok true => .ok true
    | .ok false => _matches_any_glob relParts gs

/-- `_should_skip(rel_path, is_dir, exclude_dirs, exclude_globs)`:
skip when any path component is an excluded name; otherwise, for
non-directories only, when some excluded glob matches. -/
def _should_skip (relParts : List String) (is_dir : Bool)
    (exclude_dirs exclude_globs : List String) : Except Unit Bool :=
  if relParts.any (fun part => exclude_dirs.contains part) then .ok true
  else if !is_dir then _matches_any_glob relParts exclude_globs
  else .ok false

/-- Modelled from the spec (for the refinement comparison in C2, not
from the source): shell-glob matching of the pattern against the FULL
relative path string, the semantics the spec ascribes to the exclusion
filter ("patterns are matched against the full relative path string,
not just the basename"). -/
def specFullGlobMatch (relPath pattern : String) : Bool :=
  fnmatchcase relPath pattern

/-! ### The tree renderer

Python source (identical in both scripts):

```
def build_tree_lines(root, max_depth, exclude_dirs, exclude_globs):
    root = root.resolve()
    lines = [str(root)]

    def walk(dir_path, prefix, depth):
        if depth >= max_depth:
            return
        try:
            entries = list(dir_path.iterdir())
        except PermissionError:
            lines.append(prefix + "└── " + "[permission denied]")
            return
        filtered = []
        for p in entries:
            rel = p.relative_to(root)
            if _should_skip(rel, p.is_dir(), exclude_dirs, exclude_globs):
                continue
            filtered.append(p)
        filtered.sort(key=lambda p: (p.is_file(), p.name.lower()))
        for i, p in enumerate(filtered):
            is_last = i == len(filtered) - 1
            connector = "└── " if is_last else "├── "
            name = p.name + ("/" if p.is_dir() else "")
            lines.append(prefix + connector + name)
            if p.is_dir():
                extension = "    " if is_last else "│   "
                walk(p, prefix + extension, depth + 1)

    walk(root, "", 0)
    return lines
```

The directory state is modelled by the inductive `FS`: a file, or a
directory with its listing — `none` meaning `iterdir()` raises
`PermissionError`.  The walk carries the path components relative to
the root (`rel.parts`).  `list.sort` is Python's stable sort by the key
`(p.is_file(), p.name.lower())`; we model it with insertion sort, which
is stable, and stable sorts agree extensionally.  `str.lower()` is
modelled per-character with `Char.toLower` (ASCII case folding).
-/

/-- A filesystem entry: a file, or a directory with its listing
(`none`: reading the directory raises `PermissionError`). -/
inductive FS where
  | file (name : String)
  | dir (name : String) (children : Option (List FS))

/-- Entry name (`p.name`). -/
def FS.name : FS → String
  | .file n => n
  | .dir n _ => n

/-- Python `p.is_dir()`. -/
def FS.is_dir : FS → Bool
  | .file _ => false
  | .dir _ _ => true

/-- Python `p.is_file()`. -/
def FS.is_file : FS → Bool
  | .file _ => true
  | .dir _ _ => false

theorem FS.is_dir_eq (e : FS) : e.is_dir = !e.is_file := by
  cases e <;> rfl

/-- Python `str.lower()` (ASCII case folding). -/
def pyLower (s : String) : String := ⟨s.data.map Char.toLower⟩

/-- The sort order of the walk: Python tuple comparison on the key
`(p.is_file(), p.name.lower())` — directories (`is_file = False`)
first, then case-insensitively by name. -/
def entryLe (a b : FS) : Prop :=
  (a.is_file = false ∧ b.is_file = true)
  ∨ (a.is_file = b.is_file ∧ pyLower a.name ≤ pyLower b.name)

instance : DecidableRel entryLe := fun a b => by
  unfold entryLe
  infer_instance

instance : IsTrans FS entryLe :=
  ⟨by
    intro a b c hab hbc
    rcases hab with ⟨ha, hb⟩ | ⟨hab', hle⟩ <;>
      rcases hbc with ⟨hb', hc⟩ | ⟨hbc', hle'⟩
    · exact Or.inl ⟨ha, hc⟩
    · exact Or.inl ⟨ha, by rw [← hbc']; exact hb⟩
    · exact Or.inl ⟨by rw [hab']; exact hb', hc⟩
    · exact Or.inr ⟨hab'.trans hbc', le_trans hle hle'⟩⟩

instance : IsTotal FS entryLe :=
  ⟨by
    intro a b
    cases hfa : a.is_file <;> cases hfb : b.is_file
    · rcases le_total (pyLower a.name) (pyLower b.name) with h | h
      · exact Or.inl (Or.inr ⟨by rw [hfa, hfb], h⟩)
      · exact Or.inr (Or.inr ⟨by rw [hfa, hfb], h⟩)
    · exact Or.inl (Or.inl ⟨hfa, hfb⟩)
    · exact Or.inr (Or.inl ⟨hfb, hfa⟩)
    · rcases le_total (pyLower a.name) (pyLower b.name) with h | h
      · exact Or.inl (Or.inr ⟨by rw [hfa, hfb], h⟩)
      · exact Or.inr (Or.inr ⟨by rw [hfa, hfb], h⟩)⟩

/-- `filtered.sort(key=lambda p: (p.is_file(), p.name.lower()))`:
Python's sort is stable; insertion sort is the stable sort we use to
model it (stable sorts agree extensionally on total preorders). -/
def sortEntries (l : List FS) : List FS := List.insertionSort entryLe l

/-- The filtering loop of `walk`: evaluate `_should_skip` on each entry
in listing order and keep survivors; a `Path.match` exception
propagates. -/
def filterLevel (exclude_dirs exclude_globs : List String) (relParts : List String) :
    List FS → Except Unit (List FS)
  | [] => .ok []
  | e :: es =>
    match _should_skip (relParts ++ [e.name]) e.is_dir exclude_dirs exclude_globs with
    | .error u => .error u
    | .ok skip =>
      match filterLevel exclude_dirs exclude_globs relParts es with
      | .error u => .error u
      | .ok rest => .ok (if skip then rest else e :: rest)

theorem filterLevel_sublist :
    ∀ {ds gs rp : List String} {l f : List FS},
      filterLevel ds gs rp l = .ok f → f.Sublist l := by
  intro ds gs rp l
  induction l with
  | nil =>
    intro f h
    simp only [filterLevel, Except.ok.injEq] at h
    rw [← h]
  | cons e es ih =>
    intro f h
    unfold filterLevel at h
    cases hs : _should_skip (rp ++ [e.name]) e.is_dir ds gs with
    | error u => rw [hs] at h; cases h
    | ok skip =>
      rw [hs] at h
      cases hr : filterLevel ds gs rp es with
      | error u => rw [hr] at h; cases h
      | ok rest =>
        rw [hr] at h
        simp only [Except.ok.injEq] at h
        rw [← h]
        cases skip with
        | true => simpa using (ih hr).cons e
        | false => simpa using (ih hr).cons₂ e

theorem sublist_sizeOf_le {l₁ l₂ : List FS} (h : l₁.Sublist l₂) :
    sizeOf l₁ ≤ sizeOf l₂ := by
  induction h with
  | slnil => exact Nat.le_refl _
  | cons a h ih => simp only [List.cons.sizeOf_spec]; omega
  | cons₂ a h ih => simp only [List.cons.sizeOf_spec]; omega

theorem perm_sizeOf_eq {l₁ l₂ : List FS} (h : l₁.Perm l₂) :
    sizeOf l₁ = sizeOf l₂ := by
  induction h with
  | nil => rfl
  | cons a h ih => simp only [List.cons.sizeOf_spec]; omega
  | swap a b l => simp only [List.cons.sizeOf_spec]; omega
  | trans h1 h2 ih1 ih2 => omega

theorem sortEntries_sizeOf_eq (l : List FS) : sizeOf (sortEntries l) = sizeOf l :=
  perm_sizeOf_eq (List.perm_insertionSort _ _)

mutual
/-- The recursive `walk` of `build_tree_lines` over one directory's
listing (`none` models `iterdir` raising `PermissionError`; the depth
guard comes first, exactly as in the source). -/
def walk (max_depth : Int) (exclude_dirs exclude_globs : List String)
    (contents : Option (List FS)) (relParts : List String) (pref : String)
    (depth : Int) : Except Unit (List String) :=
  if max_depth ≤ depth then .ok []
  else
    match contents with
    | none => .ok [pref ++ "└── " ++ "[permission denied]"]
    | some entries =>
      match hf : filterLevel exclude_dirs exclude_globs relParts entries with
      | .error u => .error u
      | .ok filtered =>
        renderSorted max_depth exclude_dirs exclude_globs (sortEntries filtered)
          relParts pref depth
termination_by sizeOf contents
decreasing_by
  rw [sortEntries_sizeOf_eq]
  have h1 := sublist_sizeOf_le (filterLevel_sublist hf)
  simp only [Option.some.sizeOf_spec]
  omega

/-- The `for i, p in enumerate(filtered)` loop of `walk`: one
connector-prefixed line per entry, recursing into directories with the
extended indentation. -/
def renderSorted (max_depth : Int) (exclude_dirs exclude_globs : List String)
    (es : List FS) (relParts : List String) (pref : String) (depth : Int) :
    Except Unit (List String) :=
  match es with
  | [] => .ok []
  | e :: rest =>
    let connector := if rest.isEmpty then "└── " else "├── "
    let line := pref ++ connector ++ e.name ++ (if e.is_dir then "/" else "")
    match e with
    | .file _ =>
      match renderSorted max_depth exclude_dirs exclude_globs rest relParts pref depth with
      | .error u => .error u
      | .ok tail => .ok (line :: tail)
    | .dir n oc =>
      let extension := if rest.isEmpty then "    " else "│   "
      match walk max_depth exclude_dirs exclude_globs oc (relParts ++ [n])
          (pref ++ extension) (depth + 1) with
      | .error u => .error u
      | .ok sub =>
        match renderSorted max_depth exclude_dirs exclude_globs rest relParts pref depth with
        | .error u => .error u
        | .ok tail => .ok (line :: sub ++ tail)
termination_by sizeOf es
decreasing_by
  · simp only [List.cons.sizeOf_spec]
    omega
  · simp only [List.cons.sizeOf_spec, FS.dir.sizeOf_spec]
    omega
  · simp only [List.cons.sizeOf_spec]
    omega
end

/-- `build_tree_lines(root, max_depth, exclude_dirs, exclude_globs)`:
the resolved root's label line followed by the recursive walk from
depth 0.  The root label (`str(root.resolve())`) and the root's
listing are the abstract directory state. -/
def build_tree_lines (rootLabel : String) (rootContents : Option (List FS))
    (max_depth : Int) (exclude_dirs exclude_globs : List String) :
    Except Unit (List String) :=
  match walk max_depth exclude_dirs exclude_globs rootContents [] "" 0 with
  | .error u => .error u
  | .ok ls => .ok (rootLabel :: ls)

/-- One directory level rendered without recursion (used to state the
`max_depth = 1` claim: root line, direct children, nothing deeper). -/
def oneLevelLines (pref : String) : List FS → List String
  | [] => []
  | e :: rest =>
    (pref ++ (if rest.isEmpty then "└── " else "├── ") ++ e.name
      ++ (if e.is_dir then "/" else "")) :: oneLevelLines pref rest

mutual
/-- Delete every entry whose own name is excluded, recursively
(`none` when the entry itself is excluded); C7 states that rendering is
invariant under this deletion. -/
def pruneFS (names : List String) : FS → Option FS
  | .file n => if names.contains n then none else some (.file n)
  | .dir n oc => if names.contains n then none else some (.dir n (pruneContents names oc))

/-- Prune a directory listing (permission-denied listings stay so). -/
def pruneContents (names : List String) : Option (List FS) → Option (List FS)
  | none => none
  | some l => some (pruneList names l)

/-- Prune each entry of a listing. -/
def pruneList (names : List String) : List FS → List FS
  | [] => []
  | e :: es =>
    match pruneFS names e with
    | none => pruneList names es
    | some e' => e' :: pruneList names es
end

/-! ### The documentation-literal extractor

`extract_module_docstring` in both scripts first attempts `ast.parse`;
on success it takes `ast.get_docstring(module, clean=False)`, strips
leading/trailing newlines and maps whitespace-only results to `None`.
On `SyntaxError` (or any other parse exception) it falls back to
`extract_module_docstring_fallback`, which scans the token stream
produced by `tokenize.generate_tokens`.

The Python parser and tokenizer are external collaborators; we model
their outcome abstractly:

* `PyModule` is the parsed module body as `ast.parse` returns it
  (`.exprStmt (.constStr s)` is a standalone string-literal expression
  statement, everything else is `.otherStmt` / `.otherExpr`);
* `TokStream` is the token iterator: the tokens it yields in order,
  plus a flag recording whether the iterator raises (e.g.
  `tokenize.TokenError` for EOF in a multi-line string) after yielding
  them.  Constructing the generator itself is lazy and never raises,
  which is why the scripts' `try` around `tokenize.generate_tokens` can
  never fire; an error raised *during* iteration escapes the `for` loop
  uncaught.  The `Except Unit` result records exactly that escape.
* on a `STRING` token the scripts run `ast.literal_eval(tok.string)`;
  its outcome is carried on the token: `.ok (.str v)` (a text literal),
  `.ok .bytes` (a bytes literal), or `.error ()` (decoding raised).
-/

/-- Outcome of `ast.literal_eval` on a string token's text. -/
inductive PyLit where
  | str (s : String)
  | bytes
deriving DecidableEq

/-- A token yielded by `tokenize.generate_tokens`. -/
inductive PyTok where
  | encoding
  | nl
  | newline
  | comment
  | indent
  | dedent
  | string (text : String) (lit : Except Unit PyLit)
  | other (text : String)

/-- The token types skipped by the fallback scanner (the membership
test `tok.type in (ENCODING, NL, NEWLINE, COMMENT, INDENT, DEDENT)`). -/
def PyTok.isTrivia : PyTok → Bool
  | .encoding | .nl | .newline | .comment | .indent | .dedent => true
  | _ => false

/-- The token iterator: the tokens produced, and whether the tokenizer
raises after producing them (before the stream is exhausted normally). -/
structure TokStream where
  toks : List PyTok
  raisesAfter : Bool

/-- The token loop of `extract_module_docstring_fallback`. -/
def fallbackGo : List PyTok → Bool → Except Unit (Option String)
  | [], raises => if raises then .error () else .ok none
  | t :: rest, raises =>
    if t.isTrivia then
      fallbackGo rest raises
    else
      match t with
      | .string _ (.ok (.str v)) =>
        let v2 := stripNlStr v
        .ok (if pyStripStr v2 = "" then none else some v2)
      | .string _ (.ok .bytes) =>
        -- `isinstance(value, str)` is false: fall through to `return None`
        .ok none
      | .string text (.error _) =>
        -- `ast.literal_eval` raised: return the raw token text
        let raw := stripNlStr text
        .ok (if pyStripStr raw = "" then none else some raw)
      | _ =>
        -- first substantive token is not a string: no module docstring
        .ok none

theorem fallbackGo_trivia (t : PyTok) (rest : List PyTok) (raises : Bool)
    (ht : t.isTrivia = true) :
    fallbackGo (t :: rest) raises = fallbackGo rest raises := by
  cases t <;> first | rfl | simp [PyTok.isTrivia] at ht

/-- `extract_module_docstring_fallback`: scan tokens and treat the
first non-trivia STRING token as the module docstring.  (The `try`
around `tokenize.generate_tokens` is dead code: generator construction
is lazy, so tokenizer errors surface inside the loop, uncaught.) -/
def extract_module_docstring_fallback (stream : TokStream) : Except Unit (Option String) :=
  fallbackGo stream.toks stream.raisesAfter

/-- A Python expression in statement position. -/
inductive PyExprVal where
  | constStr (s : String)
  | otherExpr

/-- A statement of the parsed module body. -/
inductive PyStmt where
  | exprStmt (v : PyExprVal)
  | otherStmt

/-- The parsed module body. -/
abbrev PyModule := List PyStmt

/-- `ast.get_docstring(module, clean=False)`: the value of the leading
standalone string-literal statement, if any. -/
def ast_get_docstring : PyModule → Option String
  | .exprStmt (.constStr s) :: _ => some s
  | _ => none

/-- `extract_module_docstring`, parameterised by the outcome of
`ast.parse` on the source and by the token stream the tokenizer
produces for the same source. -/
def extract_module_docstring (parsed : Except Unit PyModule) (stream : TokStream) :
    Except Unit (Option String) :=
  match parsed with
  | .ok m =>
    match ast_get_docstring m with
    | none => .ok none
    | some doc =>
      let d := stripNlStr doc
      .ok (if pyStripStr d = "" then none else some d)
  | .error _ => extract_module_docstring_fallback stream

/-! ### Claims C1, C4, C5, C10 -/

/-- C1: the claim says extraction never raises to its caller, even when
tokenization fails before or during token production.  The code
violates this: `tokenize.generate_tokens` is a lazy generator, so the
`try`/`except` around its construction never fires, and a
`TokenError` raised while iterating (for the source `'''abc`, the
tokenizer raises `EOF in multi-line string` before yielding any token,
and `ast.parse` fails with `SyntaxError` so the fallback runs) escapes
`extract_module_docstring` uncaught.  Evaluating the embedded code at
that input shows the exception propagating. -/
theorem extract_raises_on_mid_tokenization_error :
    extract_module_docstring (.error ()) ⟨[], true⟩ = .error () := rfl

/-- C4 (amended): on a successfully parsed module whose first statement
is a standalone string literal `s`, the result is `Found` of `s` with
leading/trailing newlines stripped — except that a result that is empty
*or consists only of whitespace* after newline-stripping yields
`Missing` (the code tests `doc.strip()`, not emptiness of the
newline-stripped value); and if the body has no leading string-literal
statement the result is `Missing`. -/
theorem extract_parse_tier_characterisation :
    (∀ (stream : TokStream) (s : String) (rest : PyModule),
        extract_module_docstring (.ok (.exprStmt (.constStr s) :: rest)) stream
          = .ok (if pyStripStr (stripNlStr s) = "" then none else some (stripNlStr s)))
    ∧ (∀ (stream : TokStream) (m : PyModule),
        (∀ (s : String) (rest : PyModule), m ≠ .exprStmt (.constStr s) :: rest) →
        extract_module_docstring (.ok m) stream = .ok none) := by
  constructor
  · intro stream s rest
    rfl
  · intro stream m hm
    match m with
    | [] => rfl
    | .exprStmt (.constStr s) :: rest => exact absurd rfl (hm s rest)
    | .exprStmt .otherExpr :: rest => rfl
    | .otherStmt :: rest => rfl

/-- Witness for C4's theorem at concrete inputs. -/
theorem extract_parse_tier_characterisation_witness :
    extract_module_docstring (.ok [.exprStmt (.constStr "computes totals")]) ⟨[], false⟩
      = .ok (if pyStripStr (stripNlStr "computes totals") = "" then none
             else some (stripNlStr "computes totals"))
    ∧ extract_module_docstring (.ok [.otherStmt]) ⟨[], false⟩ = .ok none :=
  ⟨extract_parse_tier_characterisation.1 ⟨[], false⟩ "computes totals" [],
   extract_parse_tier_characterisation.2 ⟨[], false⟩ [.otherStmt]
     (by intro s rest h; simp at h)⟩

/-- C4 counterexample: a module whose first statement is the string
literal `"   "` (three spaces).  Its newline-stripped value `"   "` is
nonempty, so the claim requires `Found("   ")`, but the code returns
`Missing` because `"   ".strip()` is empty. -/
theorem extract_parse_tier_whitespace_counterexample :
    extract_module_docstring (.ok [.exprStmt (.constStr "   ")]) ⟨[], false⟩ = .ok none
    ∧ stripNlStr "   " ≠ "" := by
  constructor
  · rfl
  · decide

/-- C5: in the token-fallback tier, only the very first substantive
token is examined: a non-string first substantive token yields
`Missing` immediately; a string token whose literal decoding fails
yields the raw token text, newline-stripped (given the tokenizer
guarantee that a STRING token's raw text is never whitespace-only — it
always contains a quote character); and a stream that ends normally
with no substantive token yields `Missing`. -/
theorem fallback_first_substantive_token :
    (∀ (pre rest : List PyTok) (b : Bool) (s : String),
        (∀ t ∈ pre, t.isTrivia = true) →
        extract_module_docstring_fallback ⟨pre ++ .other s :: rest, b⟩ = .ok none)
    ∧ (∀ (pre rest : List PyTok) (b : Bool) (text : String),
        (∀ t ∈ pre, t.isTrivia = true) →
        pyStripStr (stripNlStr text) ≠ "" →
        extract_module_docstring_fallback ⟨pre ++ .string text (.error ()) :: rest, b⟩
          = .ok (some (stripNlStr text)))
    ∧ (∀ (pre : List PyTok),
        (∀ t ∈ pre, t.isTrivia = true) →
        extract_module_docstring_fallback ⟨pre, false⟩ = .ok none) := by
  refine ⟨?_, ?_, ?_⟩
  · intro pre rest b s hpre
    induction pre with
    | nil => rfl
    | cons t tl ih =>
      have ht : t.isTrivia = true := hpre t (by simp)
      show fallbackGo (t :: (tl ++ _)) b = .ok none
      rw [fallbackGo_trivia t _ b ht]
      exact ih (fun u hu => hpre u (by simp [hu]))
  · intro pre rest b text hpre hne
    induction pre with
    | nil =>
      have h : fallbackGo (.string text (.error ()) :: rest) b
          = .ok (if pyStripStr (stripNlStr text) = "" then none
                 else some (stripNlStr text)) := rfl
      show fallbackGo (.string text (.error ()) :: rest) b = _
      rw [h, if_neg hne]
    | cons t tl ih =>
      have ht : t.isTrivia = true := hpre t (by simp)
      show fallbackGo (t :: (tl ++ _)) b = _
      rw [fallbackGo_trivia t _ b ht]
      exact ih (fun u hu => hpre u (by simp [hu]))
  · intro pre hpre
    induction pre with
    | nil => rfl
    | cons t tl ih =>
      have ht : t.isTrivia = true := hpre t (by simp)
      show fallbackGo (t :: tl) false = .ok none
      rw [fallbackGo_trivia t _ false ht]
      exact ih (fun u hu => hpre u (by simp [hu]))

/-- Witness for C5's theorem at concrete inputs. -/
theorem fallback_first_substantive_token_witness :
    extract_module_docstring_fallback
        ⟨[.comment, .nl] ++ .other "import" :: [.string "\"late\"" (.ok (.str "late"))], false⟩
      = .ok none
    ∧ extract_module_docstring_fallback
        ⟨[.comment, .nl] ++ .string "f\"cfg {x}\"" (.error ()) :: [], true⟩
      = .ok (some (stripNlStr "f\"cfg {x}\""))
    ∧ extract_module_docstring_fallback ⟨[.comment, .newline], false⟩ = .ok none :=
  ⟨fallback_first_substantive_token.1 [.comment, .nl] [.string "\"late\"" (.ok (.str "late"))]
      false "import" (by intro t ht; fin_cases ht <;> rfl),
   fallback_first_substantive_token.2.1 [.comment, .nl] [] true "f\"cfg {x}\""
      (by intro t ht; fin_cases ht <;> rfl) (by decide),
   fallback_first_substantive_token.2.2 [.comment, .newline]
      (by intro t ht; fin_cases ht <;> rfl)⟩

/-- C10: if the first substantive token is a string token whose literal
decodes successfully to a non-text value (a bytes literal), the
fallback returns `Missing`: the `isinstance(value, str)` guard fails,
no exception is raised, and control falls through to `return None`. -/
theorem fallback_bytes_literal_missing :
    ∀ (pre rest : List PyTok) (b : Bool) (text : String),
      (∀ t ∈ pre, t.isTrivia = true) →
      extract_module_docstring_fallback ⟨pre ++ .string text (.ok .bytes) :: rest, b⟩
        = .ok none := by
  intro pre rest b text hpre
  induction pre with
  | nil => rfl
  | cons t tl ih =>
    have ht : t.isTrivia = true := hpre t (by simp)
    show fallbackGo (t :: (tl ++ _)) b = .ok none
    rw [fallbackGo_trivia t _ b ht]
    exact ih (fun u hu => hpre u (by simp [hu]))

/-- Witness for C10's theorem at a concrete input. -/
theorem fallback_bytes_literal_missing_witness :
    extract_module_docstring_fallback
        ⟨[.comment] ++ .string "b\"data\"" (.ok .bytes) :: [], false⟩ = .ok none :=
  fallback_bytes_literal_missing [.comment] [] false "b\"data\""
    (by intro t ht; fin_cases ht <;> rfl)

/-! ### Lemmas about splitlines, join and strip -/

/-- A chunk of text containing no line boundary. -/
def BreakFree (l : List Char) : Prop := ∀ c ∈ l, isLineBreakChar c = false

/-- Text whose only line boundaries are plain newlines. -/
def OnlyNlBreaks (l : List Char) : Prop := ∀ c ∈ l, isLineBreakChar c = true → c = '\n'

theorem truncMarker_breakFree : BreakFree truncMarker := by
  unfold BreakFree; decide

theorem truncMarker_ne_nil : truncMarker ≠ [] := by decide

theorem truncMarker_length : truncMarker.length = 13 := by decide

theorem breakLine_of_breakFree {l : List Char} (h : BreakFree l) : breakLine l = (l, []) := by
  induction l with
  | nil => rfl
  | cons c cs ih =>
    have hc : isLineBreakChar c = false := h c (by simp)
    have hr : ¬(c = '\r' ∧ cs.head? = some '\n') := by
      rintro ⟨rfl, -⟩
      exact absurd hc (by decide)
    rw [breakLine, if_neg hr, if_neg (by simp [hc])]
    rw [ih (fun x hx => h x (by simp [hx]))]

theorem breakLine_append_nl {l : List Char} (h : BreakFree l) (r : List Char) :
    breakLine (l ++ '\n' :: r) = (l, r) := by
  induction l with
  | nil =>
    show breakLine ('\n' :: r) = ([], r)
    rw [breakLine, if_neg (by rintro ⟨h1, -⟩; exact absurd h1 (by decide)),
      if_pos (by decide)]
  | cons c cs ih =>
    have hc : isLineBreakChar c = false := h c (by simp)
    have hr : ¬(c = '\r' ∧ (cs ++ '\n' :: r).head? = some '\n') := by
      rintro ⟨rfl, -⟩
      exact absurd hc (by decide)
    show breakLine (c :: (cs ++ '\n' :: r)) = (c :: cs, r)
    rw [breakLine, if_neg hr, if_neg (by simp [hc])]
    rw [ih (fun x hx => h x (by simp [hx]))]

theorem pySplitlinesCore_nil : pySplitlinesCore [] = [] := rfl

theorem pySplitlinesCore_cons (c : Char) (cs : List Char) :
    pySplitlinesCore (c :: cs)
      = (breakLine (c :: cs)).1 :: pySplitlinesCore (breakLine (c :: cs)).2 := by
  show (breakLine (c :: cs)).1 :: splitlinesFuel cs.length (breakLine (c :: cs)).2
      = (breakLine (c :: cs)).1 :: splitlinesFuel (breakLine (c :: cs)).2.length (breakLine (c :: cs)).2
  have hlt := breakLine_snd_lt c cs
  simp only [List.length_cons] at hlt
  exact congrArg _ (splitlinesFuel_congr _ _ _ (by omega) (Nat.le_refl _))

theorem pySplitlinesCore_append_nl {l : List Char} (h : BreakFree l) (r : List Char) :
    pySplitlinesCore (l ++ '\n' :: r) = l :: pySplitlinesCore r := by
  have hb := breakLine_append_nl h r
  cases l with
  | nil =>
    rw [List.nil_append] at hb ⊢
    rw [pySplitlinesCore_cons, hb]
  | cons c cs =>
    rw [List.cons_append] at hb ⊢
    rw [pySplitlinesCore_cons, hb]

theorem pySplitlinesCore_of_breakFree {l : List Char} (h : BreakFree l) (hne : l ≠ []) :
    pySplitlinesCore l = [l] := by
  cases l with
  | nil => exact absurd rfl hne
  | cons c cs =>
    rw [pySplitlinesCore_cons, breakLine_of_breakFree h]
    show (c :: cs) :: pySplitlinesCore [] = [c :: cs]
    rw [pySplitlinesCore_nil]

theorem pySplitlinesCore_eq_nil_iff {l : List Char} :
    pySplitlinesCore l = [] ↔ l = [] := by
  cases l with
  | nil => simp [pySplitlinesCore, splitlinesFuel]
  | cons c cs => rw [pySplitlinesCore_cons]; simp

theorem breakLine_fst_breakFree : ∀ (l : List Char), BreakFree (breakLine l).1 := by
  intro l
  induction l with
  | nil => intro c hc; simp [breakLine] at hc
  | cons a as ih =>
    rw [breakLine]
    split_ifs with h1 h2
    · intro c hc; simp at hc
    · intro c hc; simp at hc
    · intro c hc
      rcases List.mem_cons.mp hc with rfl | hmem
      · simpa using h2
      · exact ih c hmem

theorem splitlines_breakFree_aux :
    ∀ (n : Nat) (l : List Char), l.length ≤ n → ∀ x ∈ pySplitlinesCore l, BreakFree x := by
  intro n
  induction n with
  | zero =>
    intro l hl x hx
    cases l with
    | nil => simp [pySplitlinesCore, splitlinesFuel] at hx
    | cons c cs => simp at hl
  | succ n ih =>
    intro l hl x hx
    cases l with
    | nil => simp [pySplitlinesCore, splitlinesFuel] at hx
    | cons c cs =>
      rw [pySplitlinesCore_cons] at hx
      rcases List.mem_cons.mp hx with rfl | hx2
      · exact breakLine_fst_breakFree _
      · refine ih (breakLine (c :: cs)).2 ?_ x hx2
        have := breakLine_snd_le c cs
        simp at hl
        omega

theorem splitlines_breakFree (l : List Char) : ∀ x ∈ pySplitlinesCore l, BreakFree x :=
  splitlines_breakFree_aux l.length l (Nat.le_refl _)

theorem joinNl_cons_cons (a b : List Char) (rest : List (List Char)) :
    joinNl (a :: b :: rest) = a ++ '\n' :: joinNl (b :: rest) := rfl

theorem joinNl_append_single {A : List (List Char)} (hA : A ≠ []) (m : List Char) :
    joinNl (A ++ [m]) = joinNl A ++ '\n' :: m := by
  induction A with
  | nil => exact absurd rfl hA
  | cons a as ih =>
    cases as with
    | nil => rfl
    | cons b bs =>
      have hih := ih (by simp)
      show joinNl (a :: ((b :: bs) ++ [m])) = (a ++ '\n' :: joinNl (b :: bs)) ++ '\n' :: m
      rw [show ((b :: bs) ++ [m] : List (List Char)) = b :: (bs ++ [m]) from rfl,
        joinNl_cons_cons,
        show (b :: (bs ++ [m]) : List (List Char)) = (b :: bs) ++ [m] from rfl, hih]
      simp

theorem joinNl_onlyNl {L : List (List Char)} (h : ∀ x ∈ L, BreakFree x) :
    OnlyNlBreaks (joinNl L) := by
  induction L with
  | nil => intro c hc; simp [joinNl] at hc
  | cons a as ih =>
    cases as with
    | nil =>
      intro c hc hbc
      have := h a (by simp) c (by simpa [joinNl] using hc)
      rw [this] at hbc; cases hbc
    | cons b bs =>
      intro c hc hbc
      rw [joinNl_cons_cons] at hc
      rcases List.mem_append.mp hc with hm | hm
      · have := h a (by simp) c hm
        rw [this] at hbc; cases hbc
      · rcases List.mem_cons.mp hm with rfl | hm2
        · rfl
        · exact ih (fun x hx => h x (by simp [hx])) c hm2 hbc

theorem splitlines_joinNl {L : List (List Char)} (h : ∀ x ∈ L, BreakFree x)
    (hlast : L.getLast? ≠ some []) :
    pySplitlinesCore (joinNl L) = L := by
  induction L with
  | nil =>
    show pySplitlinesCore [] = []
    exact pySplitlinesCore_nil
  | cons a as ih =>
    cases as with
    | nil =>
      have ha : a ≠ [] := by simpa using hlast
      rw [show joinNl [a] = a from rfl,
        pySplitlinesCore_of_breakFree (h a (by simp)) ha]
    | cons b bs =>
      rw [joinNl_cons_cons, pySplitlinesCore_append_nl (h a (by simp))]
      rw [ih (fun x hx => h x (by simp [hx]))
        (by rwa [List.getLast?_cons_cons] at hlast)]

theorem head?_dropWhile_not (p : α → Bool) :
    ∀ (l : List α) (a : α), (l.dropWhile p).head? = some a → p a = false := by
  intro l
  induction l with
  | nil => intro a h; simp [List.dropWhile] at h
  | cons x xs ih =>
    intro a h
    by_cases hx : p x = true
    · rw [List.dropWhile_cons, if_pos hx] at h
      exact ih a h
    · rw [List.dropWhile_cons, if_neg hx] at h
      simp only [List.head?_cons, Option.some.injEq] at h
      subst h
      simpa using hx

theorem getLast?_cons_of_ne_nil {a : α} {l : List α} (h : l ≠ []) :
    (a :: l).getLast? = l.getLast? := by
  obtain ⟨x, xs, rfl⟩ := List.exists_cons_of_ne_nil h
  exact List.getLast?_cons_cons

theorem exists_first_nl_decomp {l : List Char} (honly : OnlyNlBreaks l)
    (hbf : ¬BreakFree l) :
    ∃ A B, l = A ++ '\n' :: B ∧ BreakFree A := by
  have hA : BreakFree (l.takeWhile (fun c => !isLineBreakChar c)) := by
    intro c hc
    have := List.mem_takeWhile_imp hc
    simpa using this
  have hsplit : l.takeWhile (fun c => !isLineBreakChar c)
      ++ l.dropWhile (fun c => !isLineBreakChar c) = l :=
    List.takeWhile_append_dropWhile _ _
  have hrest_ne : l.dropWhile (fun c => !isLineBreakChar c) ≠ [] := by
    intro h0
    apply hbf
    intro c hc
    rw [← hsplit, h0, List.append_nil] at hc
    exact hA c hc
  obtain ⟨b, B, hbB⟩ := List.exists_cons_of_ne_nil hrest_ne
  have hb_break : isLineBreakChar b = true := by
    have hh : (l.dropWhile (fun c => !isLineBreakChar c)).head? = some b := by
      rw [hbB]; rfl
    have := head?_dropWhile_not _ l b hh
    simpa using this
  have hbmem : b ∈ l := by
    rw [← hsplit, hbB]; simp
  have hbn : b = '\n' := honly b hbmem hb_break
  have hdec : l = l.takeWhile (fun c => !isLineBreakChar c) ++ '\n' :: B := by
    conv_lhs => rw [← hsplit, hbB, hbn]
  exact ⟨_, B, hdec, hA⟩

theorem joinNl_splitlines_aux :
    ∀ (n : Nat) (l : List Char), l.length ≤ n → OnlyNlBreaks l →
      (∀ c, l.getLast? = some c → isLineBreakChar c = false) →
      joinNl (pySplitlinesCore l) = l := by
  intro n
  induction n with
  | zero =>
    intro l hl _ _
    cases l with
    | nil => rw [pySplitlinesCore_nil]; rfl
    | cons c cs => simp at hl
  | succ n ih =>
    intro l hl honly hlast
    by_cases hbf : BreakFree l
    · cases hl0 : l with
      | nil => rw [pySplitlinesCore_nil]; rfl
      | cons c cs =>
        rw [← hl0, pySplitlinesCore_of_breakFree hbf (by simp [hl0])]
        rfl
    · obtain ⟨A, B, hdecomp, hA⟩ := exists_first_nl_decomp honly hbf
      have hBne : B ≠ [] := by
        intro h0
        have hln : l.getLast? = some '\n' := by
          rw [hdecomp, h0, List.getLast?_append]
          rfl
        have := hlast '\n' hln
        exact absurd this (by decide)
      have hBlen : B.length ≤ n := by
        have hll := congrArg List.length hdecomp
        simp only [List.length_append, List.length_cons] at hll
        omega
      have hBonly : OnlyNlBreaks B := by
        intro c hc
        exact honly c (by rw [hdecomp]; simp [hc])
      have hBlast : ∀ c, B.getLast? = some c → isLineBreakChar c = false := by
        intro c hc
        apply hlast c
        rw [hdecomp, List.getLast?_append, getLast?_cons_of_ne_nil hBne, hc]
        rfl
      have hjoinB := ih B hBlen hBonly hBlast
      have hsne : pySplitlinesCore B ≠ [] := by
        rw [Ne, pySplitlinesCore_eq_nil_iff]; exact hBne
      obtain ⟨s0, ss, hss⟩ := List.exists_cons_of_ne_nil hsne
      rw [hdecomp, pySplitlinesCore_append_nl hA, hss, joinNl_cons_cons, ← hss, hjoinB]

theorem joinNl_splitlines {l : List Char} (honly : OnlyNlBreaks l)
    (hlast : ∀ c, l.getLast? = some c → isLineBreakChar c = false) :
    joinNl (pySplitlinesCore l) = l :=
  joinNl_splitlines_aux l.length l (Nat.le_refl _) honly hlast

theorem splitlines_append_line {X m : List Char} (honly : OnlyNlBreaks X) (hXne : X ≠ [])
    (hlast : ∀ c, X.getLast? = some c → isLineBreakChar c = false)
    (hm : BreakFree m) (hmne : m ≠ []) :
    pySplitlinesCore (X ++ '\n' :: m) = pySplitlinesCore X ++ [m] := by
  have hSbf : ∀ x ∈ pySplitlinesCore X, BreakFree x := splitlines_breakFree X
  have hSne : pySplitlinesCore X ≠ [] := by
    rw [Ne, pySplitlinesCore_eq_nil_iff]; exact hXne
  have hXj : joinNl (pySplitlinesCore X) = X := joinNl_splitlines honly hlast
  have h1 : X ++ '\n' :: m = joinNl (pySplitlinesCore X ++ [m]) := by
    rw [joinNl_append_single hSne, hXj]
  rw [h1]
  apply splitlines_joinNl
  · intro x hx
    rcases List.mem_append.mp hx with hx1 | hx2
    · exact hSbf x hx1
    · simp at hx2; rw [hx2]; exact hm
  · rw [List.getLast?_append]
    simp only [List.getLast?_singleton]
    intro hcontra
    simp only [Option.or, Option.some.injEq] at hcontra
    exact hmne hcontra

theorem prefix_append_cons {P X : List α} {y : α} {Y : List α} (hP : P <+: X ++ y :: Y) :
    P <+: X ∨ ∃ Q, Q <+: Y ∧ P = X ++ y :: Q := by
  obtain ⟨t, ht⟩ := hP
  have h1 : P = (X ++ y :: Y).take P.length := by
    rw [← ht]
    exact ( List.take_left P t).symm
  by_cases hle : P.length ≤ X.length
  · left
    rw [List.take_append_eq_append_take, Nat.sub_eq_zero_of_le hle] at h1
    simp only [List.take_zero, List.append_nil] at h1
    rw [h1]
    exact List.take_prefix _ _
  · right
    push_neg at hle
    refine ⟨Y.take (P.length - X.length - 1), List.take_prefix _ _, ?_⟩
    rw [List.take_append_eq_append_take, List.take_of_length_le (by omega)] at h1
    have h2 : P.length - X.length = (P.length - X.length - 1) + 1 := by omega
    rw [h2, List.take_succ_cons] at h1
    exact h1

theorem splitlines_length_le_of_prefix :
    ∀ (L : List (List Char)), (∀ x ∈ L, BreakFree x) →
      ∀ P, P <+: joinNl L → (pySplitlinesCore P).length ≤ L.length := by
  intro L
  induction L with
  | nil =>
    intro _ P hP
    have : P = [] := List.prefix_nil.mp (by simpa [joinNl] using hP)
    simp [this, pySplitlinesCore, splitlinesFuel]
  | cons a as ih =>
    intro h P hP
    cases as with
    | nil =>
      have hPbf : BreakFree P := fun c hc =>
        h a (by simp) c (hP.sublist.subset hc)
      cases hP0 : P with
      | nil => simp [pySplitlinesCore, splitlinesFuel]
      | cons x xs =>
        rw [← hP0, pySplitlinesCore_of_breakFree hPbf (by simp [hP0])]
        simp
    | cons b bs =>
      rw [joinNl_cons_cons] at hP
      have habf : BreakFree a := h a (by simp)
      rcases prefix_append_cons hP with hPa | ⟨Q, hQ, rfl⟩
      · have hPbf : BreakFree P := fun c hc => habf c (hPa.sublist.subset hc)
        cases hP0 : P with
        | nil => simp [pySplitlinesCore, splitlinesFuel]
        | cons x xs =>
          rw [← hP0, pySplitlinesCore_of_breakFree hPbf (by simp [hP0])]
          simp
      · rw [pySplitlinesCore_append_nl habf]
        have := ih (fun x hx => h x (by simp [hx])) Q hQ
        simp only [List.length_cons] at this ⊢
        omega

theorem rstripCore_prefix_self (l : List Char) : rstripCore l <+: l := by
  have h : List.dropWhile pyIsSpaceChar l.reverse <:+ l.reverse :=
    List.dropWhile_suffix _
  refine List.reverse_suffix.mp ?_
  rw [rstripCore, pyDropTrailing, List.reverse_reverse]
  exact h

theorem rstripCore_getLast?_not_space {l : List Char} {c : Char}
    (h : (rstripCore l).getLast? = some c) : pyIsSpaceChar c = false := by
  rw [rstripCore, pyDropTrailing, List.getLast?_reverse] at h
  exact head?_dropWhile_not _ _ c h

theorem onlyNl_of_prefix {P l : List Char} (hP : P <+: l) (h : OnlyNlBreaks l) :
    OnlyNlBreaks P :=
  fun c hc => h c (hP.sublist.subset hc)

theorem pyListSlice_nonneg {n : Int} (h : 0 ≤ n) (l : List α) :
    pyListSlice n l = l.take n.toNat := if_pos h

theorem lineTrunc_idem {L1 : List (List Char)} {L : Int} (hL : 0 ≤ L) :
    lineTrunc L (lineTrunc L L1) = lineTrunc L L1 := by
  by_cases hlt : L < (L1.length : Int)
  · have hstep : lineTrunc L L1 = pyListSlice L L1 ++ [truncMarker] := by
      unfold lineTrunc
      rw [if_pos hlt]
    have hlen : (pyListSlice L L1).length = L.toNat := by
      rw [pyListSlice_nonneg hL, List.length_take]
      omega
    rw [hstep]
    unfold lineTrunc
    rw [if_pos (by simp only [List.length_append, List.length_singleton, hlen]; push_cast; omega)]
    rw [pyListSlice_nonneg hL, List.take_append_eq_append_take,
      List.take_of_length_le (le_of_eq hlen)]
    rw [hlen, Nat.sub_self, List.take_zero, List.append_nil]
  · have hstep : lineTrunc L L1 = L1 := by
      unfold lineTrunc
      rw [if_neg hlt]
    rw [hstep, hstep]

/-! ### Claims C3 and C9 -/

theorem charTrunc_length_le {C : Int} (hC : 20 ≤ C) (out : List Char) :
    ((charTrunc C out).length : Int) ≤ C := by
  unfold charTrunc
  split_ifs with h
  · have h1 : (rstripCore (pyListSlice (C - 20) out)).length ≤ (C - 20).toNat := by
      rw [pyListSlice_nonneg (by omega)]
      exact le_trans ( rstripCore_prefix_self _).length_le ( List.length_take_le _ _)
    rw [List.length_append, List.length_cons, truncMarker_length]
    push_cast
    omega
  · omega

/-- The core idempotence result for the truncator, on `List Char`. -/
theorem truncCore_idem {text : List Char} {L C : Int} (hL : 0 ≤ L) (hC : 20 ≤ C)
    (hlast : (pySplitlinesCore text).getLast? ≠ some []) :
    truncCore (truncCore text L C) L C = truncCore text L C := by
  have hL1bf : ∀ x ∈ pySplitlinesCore text, BreakFree x := splitlines_breakFree text
  have hL1'bf : ∀ x ∈ lineTrunc L (pySplitlinesCore text), BreakFree x := by
    intro x hx
    unfold lineTrunc at hx
    split_ifs at hx with hcond
    · rcases List.mem_append.mp hx with hx1 | hx2
      · rw [pyListSlice_nonneg hL] at hx1
        exact hL1bf x (List.take_subset _ _ hx1)
      · simp at hx2; rw [hx2]; exact truncMarker_breakFree
    · exact hL1bf x hx
  have hL1'last : (lineTrunc L (pySplitlinesCore text)).getLast? ≠ some [] := by
    unfold lineTrunc
    split_ifs with hcond
    · rw [List.getLast?_append]
      simp only [List.getLast?_singleton]
      intro hcontra
      simp only [Option.or, Option.some.injEq] at hcontra
      exact truncMarker_ne_nil hcontra
    · exact hlast
  have honly : OnlyNlBreaks (joinNl (lineTrunc L (pySplitlinesCore text))) :=
    joinNl_onlyNl hL1'bf
  by_cases hcut : C < ((joinNl (lineTrunc L (pySplitlinesCore text))).length : Int)
  case neg =>
    have hr1 : truncCore text L C = joinNl (lineTrunc L (pySplitlinesCore text)) := by
      unfold truncCore charTrunc
      rw [if_neg hcut]
    rw [hr1]
    unfold truncCore
    rw [splitlines_joinNl hL1'bf hL1'last, lineTrunc_idem hL]
    unfold charTrunc
    rw [if_neg hcut]
  case pos =>
    set J := joinNl (lineTrunc L (pySplitlinesCore text)) with hJdef
    have hc0 : (0:Int) ≤ C - 20 := by omega
    set P' := rstripCore (J.take (C - 20).toNat) with hQdef
    have hr1 : truncCore text L C = P' ++ '\n' :: truncMarker := by
      unfold truncCore charTrunc
      rw [← hJdef, if_pos hcut, pyListSlice_nonneg hc0, ← hQdef]
    have hQpre : P' <+: J := by
      rw [hQdef]
      exact ( rstripCore_prefix_self _).trans ( List.take_prefix _ _)
    have honlyP' : OnlyNlBreaks P' := onlyNl_of_prefix hQpre honly
    have hQlast : ∀ ch, P'.getLast? = some ch → isLineBreakChar ch = false := by
      intro ch hch
      rw [hQdef] at hch
      have hs : pyIsSpaceChar ch = false := rstripCore_getLast?_not_space hch
      by_contra hbr
      rw [Bool.not_eq_false] at hbr
      rw [pyIsSpaceChar_of_isLineBreakChar hbr] at hs
      cases hs
    have hQlen : P'.length ≤ (C - 20).toNat := by
      rw [hQdef]
      exact le_trans ( rstripCore_prefix_self _).length_le ( List.length_take_le _ _)
    have hcount : (pySplitlinesCore P').length ≤ L.toNat ∧ 1 ≤ L.toNat := by
      by_cases hlt : L < ((pySplitlinesCore text).length : Int)
      · have hKdef : lineTrunc L (pySplitlinesCore text)
            = pyListSlice L (pySplitlinesCore text) ++ [truncMarker] := by
          unfold lineTrunc
          rw [if_pos hlt]
        have hKlen : (pyListSlice L (pySplitlinesCore text)).length = L.toNat := by
          rw [pyListSlice_nonneg hL, List.length_take]
          omega
        by_cases hKnil : pyListSlice L (pySplitlinesCore text) = []
        · exfalso
          have hJM : J = truncMarker := by
            rw [hJdef, hKdef, hKnil, List.nil_append]
            rfl
          have hml := truncMarker_length
          rw [hJM] at hcut
          omega
        · have hKjoin : J = joinNl (pyListSlice L (pySplitlinesCore text))
              ++ '\n' :: truncMarker := by
            rw [hJdef, hKdef, joinNl_append_single hKnil]
          have hml := truncMarker_length
          have hJlen : J.length
              = (joinNl (pyListSlice L (pySplitlinesCore text))).length + 14 := by
            rw [hKjoin]
            simp only [List.length_append, List.length_cons, hml]
          have hcK : (C - 20).toNat
              < (joinNl (pyListSlice L (pySplitlinesCore text))).length := by
            omega
          have hPJK : J.take (C - 20).toNat
              <+: joinNl (pyListSlice L (pySplitlinesCore text)) := by
            rw [hKjoin, List.take_append_eq_append_take,
              Nat.sub_eq_zero_of_le (le_of_lt hcK), List.take_zero, List.append_nil]
            exact List.take_prefix _ _
          have hQK : P' <+: joinNl (pyListSlice L (pySplitlinesCore text)) := by
            rw [hQdef]
            exact ( rstripCore_prefix_self _).trans hPJK
          have hKbf : ∀ x ∈ pyListSlice L (pySplitlinesCore text), BreakFree x := by
            intro x hx
            rw [pyListSlice_nonneg hL] at hx
            exact hL1bf x (List.take_subset _ _ hx)
          constructor
          · have := splitlines_length_le_of_prefix _ hKbf P' hQK
            rw [hKlen] at this
            exact this
          · have := List.length_pos.mpr hKnil
            omega
      · have hKdef : lineTrunc L (pySplitlinesCore text) = pySplitlinesCore text := by
          unfold lineTrunc
          rw [if_neg hlt]
        have hne : pySplitlinesCore text ≠ [] := by
          intro h0
          rw [hJdef, hKdef, h0] at hcut
          have h00 : ((joinNl ([] : List (List Char))).length : Int) = 0 := rfl
          omega
        constructor
        · have hQJ := hQpre
          rw [hJdef, hKdef] at hQJ
          have := splitlines_length_le_of_prefix _ hL1bf P' hQJ
          omega
        · have := List.length_pos.mpr hne
          omega
    obtain ⟨hcnt, hLpos⟩ := hcount
    have hml := truncMarker_length
    have hnocut2 : ¬ C < ((P' ++ '\n' :: truncMarker).length : Int) := by
      rw [List.length_append, List.length_cons, hml]
      push_cast
      omega
    rw [hr1]
    unfold truncCore
    by_cases hQnil : P' = []
    · have hsplit2 : pySplitlinesCore ('\n' :: truncMarker) = [[], truncMarker] := by
        rw [show ('\n' :: truncMarker : List Char) = [] ++ '\n' :: truncMarker from rfl,
          pySplitlinesCore_append_nl (by intro c hc; simp at hc),
          pySplitlinesCore_of_breakFree truncMarker_breakFree truncMarker_ne_nil]
      have h14 : ¬ C < ((('\n' :: truncMarker : List Char)).length : Int) := by
        rw [List.length_cons, hml]
        push_cast
        omega
      rw [hQnil, List.nil_append, hsplit2]
      unfold lineTrunc
      by_cases hl2 : L < (([[], truncMarker] : List (List Char)).length : Int)
      · have hLeq : L = 1 := by
          have h2 : (([[], truncMarker] : List (List Char)).length : Int) = 2 := by
            norm_num
          rw [h2] at hl2
          omega
        rw [if_pos hl2, hLeq]
        rw [pyListSlice_nonneg (by norm_num)]
        show charTrunc C ('\n' :: truncMarker) = '\n' :: truncMarker
        unfold charTrunc
        rw [if_neg h14]
      · rw [if_neg hl2]
        show charTrunc C ('\n' :: truncMarker) = '\n' :: truncMarker
        unfold charTrunc
        rw [if_neg h14]
    · rw [splitlines_append_line honlyP' hQnil hQlast truncMarker_breakFree
        truncMarker_ne_nil]
      have hSne : pySplitlinesCore P' ≠ [] := by
        rw [Ne, pySplitlinesCore_eq_nil_iff]; exact hQnil
      have hjoinS : joinNl (pySplitlinesCore P') = P' := joinNl_splitlines honlyP' hQlast
      unfold lineTrunc
      by_cases hcond2 :
          L < (((pySplitlinesCore P' ++ [truncMarker]) : List (List Char)).length : Int)
      · have hSeq : (pySplitlinesCore P').length = L.toNat := by
          simp only [List.length_append, List.length_singleton] at hcond2
          omega
        rw [if_pos hcond2, pyListSlice_nonneg hL, List.take_append_eq_append_take,
          List.take_of_length_le (le_of_eq hSeq), hSeq, Nat.sub_self, List.take_zero,
          List.append_nil]
        rw [joinNl_append_single hSne, hjoinS]
        unfold charTrunc
        rw [if_neg hnocut2]
      · rw [if_neg hcond2]
        rw [joinNl_append_single hSne, hjoinS]
        unfold charTrunc
        rw [if_neg hnocut2]

theorem pySplitlines_getLast?_ne {text : String}
    (h : (pySplitlines text).getLast? ≠ some "") :
    (pySplitlinesCore text.data).getLast? ≠ some [] := by
  intro hcontra
  apply h
  rw [pySplitlines, List.getLast?_map, hcontra]
  rfl

/-- C3 (amended): applying `truncate` twice with the same limits to its
own output yields the same output, provided `max_lines` is nonnegative,
`max_chars` is at least 20 (so the character-cut index is nonnegative),
and the text's split lines do not end with an empty line.  Without the
last condition the first application rewrites the text's trailing
line boundaries (`"\n".join(text.splitlines())` drops a trailing empty
line), so a second application shortens the output again. -/
theorem truncate_idempotent_amended :
    ∀ (text : String) (max_lines max_chars : Int),
      0 ≤ max_lines → 20 ≤ max_chars →
      (pySplitlines text).getLast? ≠ some "" →
      truncate (truncate text max_lines max_chars) max_lines max_chars
        = truncate text max_lines max_chars := by
  intro text L C hL hC hlast
  show (⟨truncCore (truncCore text.data L C) L C⟩ : String) = ⟨truncCore text.data L C⟩
  rw [truncCore_idem hL hC (pySplitlines_getLast?_ne hlast)]

/-- Witness for C3's amended theorem at a concrete input. -/
theorem truncate_idempotent_amended_witness :
    (0:Int) ≤ 60 ∧ (20:Int) ≤ 4000
    ∧ (pySplitlines "hello\nworld").getLast? ≠ some ""
    ∧ truncate (truncate "hello\nworld" 60 4000) 60 4000
        = truncate "hello\nworld" 60 4000 :=
  ⟨by decide, by decide, by decide,
   truncate_idempotent_amended "hello\nworld" 60 4000 (by decide) (by decide) (by decide)⟩

/-- C3 counterexample: for text ending in an empty line the claim
fails even with generous limits.  `truncate("a\n\n", 60, 4000)` is
`"a\n"` (the join drops the trailing empty line), and truncating that
again gives `"a"`, not `"a\n"`. -/
theorem truncate_not_idempotent_counterexample :
    truncate (truncate "a\n\n" 60 4000) 60 4000 ≠ truncate "a\n\n" 60 4000 := by
  decide

/-- C9: whenever `max_chars ≥ 20` the output of `truncate` has at most
`max_chars` characters (the cut keeps `max_chars - 20` characters and
appends a 14-character marker, and without a cut the length is already
within the limit); and the bound fails for `max_chars < 20`, because the
cut index `max_chars - 20` is then a negative Python slice index that
keeps characters from the end: at `max_chars = 0` a 30-character line
truncates to 24 characters. -/
theorem truncate_length_bound :
    (∀ (text : String) (max_lines max_chars : Int), 20 ≤ max_chars →
        ((truncate text max_lines max_chars).length : Int) ≤ max_chars)
    ∧ ¬ ((truncate "aaaaaaaaaaaaaaaaaaaaaaaaaaaaaa" 1 0).length : Int) ≤ 0 := by
  constructor
  · intro text L C hC
    show (((charTrunc C (joinNl (lineTrunc L (pySplitlinesCore text.data)))).length : Nat) : Int) ≤ C
    exact charTrunc_length_le hC _
  · decide

/-- Witness for C9's theorem at a concrete input. -/
theorem truncate_length_bound_witness :
    ((truncate "hello" 2 25).length : Int) ≤ 25 :=
  truncate_length_bound.1 "hello" 2 25 (by decide)

/-! ### Claim C2 -/

/-- C2 counterexample: the filter skips `a/b/c.txt` for the glob
`b/*.txt` even though that pattern does not match the full relative
path string under shell-glob semantics — `Path.match` matches the
pattern against the TRAILING components of the path, not the full
path.  This refutes the claim that a glob causes exclusion only when
it matches the full relative path. -/
theorem glob_trailing_match_counterexample :
    _should_skip ["a", "b", "c.txt"] false [] ["b/*.txt"] = .ok true
    ∧ specFullGlobMatch "a/b/c.txt" "b/*.txt" = false := by
  constructor
  · rfl
  · rfl

/-- C2 (amended): glob exclusion is right-anchored on path components:
for a single-component pattern (no `/`), `_should_skip` on a
non-directory path reduces to `fnmatch` of the pattern against the
BASENAME alone, whatever the leading components are — so a pattern may
match a mere trailing portion of the path, contrary to the claim. -/
theorem glob_matches_basename :
    ∀ (ps : List String) (base g : String),
      toParts g = [g] → hasRootSlash g = false →
      _should_skip (ps ++ [base]) false [] [g] = .ok (fnmatchcase base g) := by
  intro ps base g hg hroot
  have hmatch : pathMatchParts (ps ++ [base]) g = .ok (fnmatchcase base g) := by
    unfold pathMatchParts
    rw [hg]
    rw [if_neg (by simp)]
    rw [hroot]
    rw [if_neg (by simp)]
    rw [if_neg (by simp [List.length_append])]
    rw [List.reverse_append]
    simp
  unfold _should_skip
  rw [if_neg (by simp [List.contains])]
  show _matches_any_glob (ps ++ [base]) [g] = .ok (fnmatchcase base g)
  unfold _matches_any_glob
  rw [hmatch]
  cases hfn : fnmatchcase base g
  · rfl
  · rfl

/-- Witness for C2's amended theorem at a concrete input. -/
theorem glob_matches_basename_witness :
    toParts "*.so" = ["*.so"] ∧ hasRootSlash "*.so" = false
    ∧ _should_skip (["lib"] ++ ["x.so"]) false [] ["*.so"]
        = .ok (fnmatchcase "x.so" "*.so") :=
  ⟨by rfl, by rfl, glob_matches_basename ["lib"] "x.so" "*.so" (by rfl) (by rfl)⟩

/-! ### Unfolding equations for the tree walk -/

theorem walk_stop {maxD : Int} {ds gs : List String} {oc : Option (List FS)}
    {rp : List String} {pref : String} {depth : Int} (h : maxD ≤ depth) :
    walk maxD ds gs oc rp pref depth = .ok [] := by
  rw [walk.eq_def, if_pos h]

theorem walk_denied {maxD : Int} {ds gs : List String} {rp : List String}
    {pref : String} {depth : Int} (h : ¬ maxD ≤ depth) :
    walk maxD ds gs none rp pref depth
      = .ok [pref ++ "└── " ++ "[permission denied]"] := by
  rw [walk.eq_def, if_neg h]

theorem walk_some {maxD : Int} {ds gs : List String} {entries : List FS}
    {rp : List String} {pref : String} {depth : Int} (h : ¬ maxD ≤ depth) :
    walk maxD ds gs (some entries) rp pref depth
      = match filterLevel ds gs rp entries with
        | .error u => .error u
        | .ok filtered => renderSorted maxD ds gs (sortEntries filtered) rp pref depth := by
  rw [walk.eq_def, if_neg h]
  show (match hf : filterLevel ds gs rp entries with
        | Except.error u => Except.error u
        | Except.ok filtered => renderSorted maxD ds gs (sortEntries filtered) rp pref depth)
      = _
  split
  · rename_i u heq
    rw [heq]
  · rename_i filtered heq
    rw [heq]

theorem renderSorted_nil {maxD : Int} {ds gs : List String} {rp : List String}
    {pref : String} {depth : Int} :
    renderSorted maxD ds gs [] rp pref depth = .ok [] := by
  rw [renderSorted]

theorem renderSorted_cons_file {maxD : Int} {ds gs : List String} {n : String}
    {rest : List FS} {rp : List String} {pref : String} {depth : Int} :
    renderSorted maxD ds gs (.file n :: rest) rp pref depth
      = match renderSorted maxD ds gs rest rp pref depth with
        | .error u => .error u
        | .ok tail =>
          .ok ((pref ++ (if rest.isEmpty then "└── " else "├── ") ++ n ++ "") :: tail) := by
  rw [renderSorted]
  cases renderSorted maxD ds gs rest rp pref depth <;> rfl

theorem renderSorted_cons_dir {maxD : Int} {ds gs : List String} {n : String}
    {oc : Option (List FS)} {rest : List FS} {rp : List String} {pref : String}
    {depth : Int} :
    renderSorted maxD ds gs (.dir n oc :: rest) rp pref depth
      = match walk maxD ds gs oc (rp ++ [n])
            (pref ++ (if rest.isEmpty then "    " else "│   ")) (depth + 1) with
        | .error u => .error u
        | .ok sub =>
          match renderSorted maxD ds gs rest rp pref depth with
          | .error u => .error u
          | .ok tail =>
            .ok ((pref ++ (if rest.isEmpty then "└── " else "├── ") ++ n ++ "/")
              :: sub ++ tail) := by
  rw [renderSorted]
  cases walk maxD ds gs oc (rp ++ [n])
      (pref ++ (if rest.isEmpty then "    " else "│   ")) (depth + 1) with
  | error u => rfl
  | ok sub => cases renderSorted maxD ds gs rest rp pref depth <;> rfl

/-! ### Claim C6 -/

/-- C6: every directory level rendered by the walk lists its surviving
entries with all directories before all files, case-insensitively
sorted by name within each group.  `walk` renders every level as
`renderSorted … (sortEntries filtered) …`, so this is exactly the
ordering invariant of `sortEntries`, for every entry list (hence every
directory state and exclusion configuration). -/
theorem sortEntries_ordering :
    ∀ (l : List FS),
      (sortEntries l).Pairwise (fun a b =>
        (b.is_dir = true → a.is_dir = true)
        ∧ (a.is_dir = b.is_dir → pyLower a.name ≤ pyLower b.name)) := by
  intro l
  have hs : (sortEntries l).Pairwise entryLe := List.sorted_insertionSort entryLe l
  refine hs.imp ?_
  intro a b hab
  constructor
  · intro hbdir
    rw [FS.is_dir_eq] at hbdir ⊢
    rcases hab with ⟨ha, hb⟩ | ⟨heq, -⟩
    · rw [hb] at hbdir
      simp at hbdir
    · rw [heq]
      exact hbdir
  · intro hdeq
    rw [FS.is_dir_eq, FS.is_dir_eq] at hdeq
    rcases hab with ⟨ha, hb⟩ | ⟨-, hle⟩
    · rw [ha, hb] at hdeq
      simp at hdeq
    · exact hle

/-! ### Claim C8 -/

/-- C8: the walk recursion stops once `depth ≥ max_depth` (first
conjunct: at such a depth the walk emits nothing); consequently (second
conjunct) with `max_depth = 1` the rendered tree is exactly the root
label line followed by one line per surviving direct child — rendered
by the non-recursive `oneLevelLines` — so no grandchildren appear. -/
theorem walk_depth_bound :
    (∀ (max_depth : Int) (ds gs : List String) (oc : Option (List FS))
        (rp : List String) (pref : String) (depth : Int),
        max_depth ≤ depth →
        walk max_depth ds gs oc rp pref depth = .ok [])
    ∧ (∀ (label : String) (entries : List FS) (ds gs : List String),
        build_tree_lines label (some entries) 1 ds gs
          = Except.map (fun f => label :: oneLevelLines "" (sortEntries f))
              (filterLevel ds gs [] entries)) := by
  have hone : ∀ (ds gs : List String) (es : List FS) (rp : List String) (pref : String),
      renderSorted 1 ds gs es rp pref 0 = .ok (oneLevelLines pref es) := by
    intro ds gs es
    induction es with
    | nil => intro rp pref; rw [renderSorted_nil]; rfl
    | cons e rest ih =>
      intro rp pref
      cases e with
      | file n =>
        rw [renderSorted_cons_file, ih rp pref]
        rfl
      | dir n oc =>
        rw [renderSorted_cons_dir, walk_stop (by omega), ih rp pref]
        rfl
  refine ⟨fun maxD ds gs oc rp pref depth h => walk_stop h, ?_⟩
  intro label entries ds gs
  unfold build_tree_lines
  rw [walk_some (by omega)]
  cases hfe : filterLevel ds gs [] entries with
  | error u => rfl
  | ok f =>
    show (match renderSorted 1 ds gs (sortEntries f) [] "" 0 with
          | Except.error u => Except.error u
          | Except.ok ls => Except.ok (label :: ls))
        = Except.map (fun f => label :: oneLevelLines "" (sortEntries f)) (Except.ok f)
    rw [hone ds gs (sortEntries f) [] ""]
    rfl

/-- Witness for C8's theorem at a concrete input (discharging the
depth hypothesis of the first conjunct). -/
theorem walk_depth_bound_witness :
    walk 1 ["node_modules"] [] (some [FS.file "a.py"]) [] "" 5 = .ok [] :=
  walk_depth_bound.1 1 ["node_modules"] [] (some [FS.file "a.py"]) [] "" 5 (by decide)

/-! ### Claim C7 -/

theorem should_skip_of_mem :
    ∀ (parts : List String) (d : Bool) (ds gs : List String) (part : String),
      part ∈ parts → part ∈ ds → _should_skip parts d ds gs = .ok true := by
  intro parts d ds gs part hp hd
  unfold _should_skip
  rw [if_pos (List.any_eq_true.mpr ⟨part, hp, List.elem_iff.mpr hd⟩)]

theorem should_skip_ok_false_not_contains {parts : List String} {d : Bool}
    {ds gs : List String} (h : _should_skip parts d ds gs = .ok false) :
    parts.any (fun p => ds.contains p) = false := by
  by_contra hc
  rw [Bool.not_eq_false] at hc
  unfold _should_skip at h
  rw [if_pos hc] at h
  cases h

/-- Relation coupling an entry with its pruned form. -/
def PruneRel (names : List String) (e e' : FS) : Prop := pruneFS names e = some e'

theorem pruneFS_file_eq (names : List String) (n : String) :
    pruneFS names (FS.file n)
      = if names.contains n then none else some (.file n) := by
  rw [pruneFS]

theorem pruneFS_dir_eq (names : List String) (n : String) (oc : Option (List FS)) :
    pruneFS names (FS.dir n oc)
      = if names.contains n then none
        else some (.dir n (pruneContents names oc)) := by
  rw [pruneFS]

theorem pruneContents_none_eq (names : List String) :
    pruneContents names none = none := by
  rw [pruneContents]

theorem pruneContents_some_eq (names : List String) (l : List FS) :
    pruneContents names (some l) = some (pruneList names l) := by
  rw [pruneContents]

theorem pruneList_nil_eq (names : List String) : pruneList names [] = [] := by
  rw [pruneList]

theorem pruneList_cons_eq (names : List String) (e : FS) (es : List FS) :
    pruneList names (e :: es)
      = match pruneFS names e with
        | none => pruneList names es
        | some e' => e' :: pruneList names es := by
  rw [pruneList]

theorem pruneFS_none_iff {names : List String} {e : FS} :
    pruneFS names e = none ↔ names.contains e.name = true := by
  cases e with
  | file n =>
    show pruneFS names (FS.file n) = none ↔ names.contains n = true
    rw [pruneFS_file_eq]
    by_cases hc : names.contains n = true
    · rw [if_pos hc]
      exact iff_of_true rfl hc
    · rw [if_neg hc]
      exact iff_of_false (fun h => Option.noConfusion h) hc
  | dir n oc =>
    show pruneFS names (FS.dir n oc) = none ↔ names.contains n = true
    rw [pruneFS_dir_eq]
    by_cases hc : names.contains n = true
    · rw [if_pos hc]
      exact iff_of_true rfl hc
    · rw [if_neg hc]
      exact iff_of_false (fun h => Option.noConfusion h) hc

theorem pruneRel_file {names : List String} {n : String} {e' : FS}
    (h : PruneRel names (.file n) e') : e' = .file n := by
  unfold PruneRel at h
  rw [pruneFS_file_eq] at h
  split_ifs at h with hc
  exact (Option.some_inj.mp h).symm

theorem pruneRel_dir {names : List String} {n : String} {oc : Option (List FS)} {e' : FS}
    (h : PruneRel names (.dir n oc) e') : e' = .dir n (pruneContents names oc) := by
  unfold PruneRel at h
  rw [pruneFS_dir_eq] at h
  split_ifs at h with hc
  exact (Option.some_inj.mp h).symm

theorem pruneRel_name {names : List String} {e e' : FS} (h : PruneRel names e e') :
    e'.name = e.name := by
  cases e with
  | file n => rw [pruneRel_file h]
  | dir n oc => rw [pruneRel_dir h]; rfl

theorem pruneRel_is_dir {names : List String} {e e' : FS} (h : PruneRel names e e') :
    e'.is_dir = e.is_dir := by
  cases e with
  | file n => rw [pruneRel_file h]
  | dir n oc => rw [pruneRel_dir h]; rfl

theorem pruneRel_is_file {names : List String} {e e' : FS} (h : PruneRel names e e') :
    e'.is_file = e.is_file := by
  cases e with
  | file n => rw [pruneRel_file h]
  | dir n oc => rw [pruneRel_dir h]; rfl

theorem forall₂_pruneList {names : List String} :
    ∀ {l : List FS}, (∀ e ∈ l, names.contains e.name = false) →
      List.Forall₂ (PruneRel names) l (pruneList names l) := by
  intro l
  induction l with
  | nil => intro _; rw [pruneList_nil_eq]; exact .nil
  | cons e es ih =>
    intro h
    rw [pruneList_cons_eq]
    cases hpe : pruneFS names e with
    | none =>
      exfalso
      have := pruneFS_none_iff.mp hpe
      rw [h e (by simp)] at this
      cases this
    | some e' =>
      exact .cons hpe (ih (fun x hx => h x (by simp [hx])))

theorem entryLe_congr {names : List String} {a a' b b' : FS}
    (ha : PruneRel names a a') (hb : PruneRel names b b') :
    entryLe a' b' ↔ entryLe a b := by
  unfold entryLe
  rw [pruneRel_name ha, pruneRel_name hb, pruneRel_is_file ha, pruneRel_is_file hb]

theorem orderedInsert_forall₂ {names : List String} :
    ∀ {l l' : List FS}, List.Forall₂ (PruneRel names) l l' →
      ∀ {a a' : FS}, PruneRel names a a' →
        List.Forall₂ (PruneRel names) (List.orderedInsert entryLe a l)
          (List.orderedInsert entryLe a' l') := by
  intro l l' h
  induction h with
  | nil => intro a a' ha; exact .cons ha .nil
  | @cons b b' tl tl' hbb' htail ih =>
    intro a a' ha
    rw [List.orderedInsert, List.orderedInsert]
    by_cases hle : entryLe a b
    · rw [if_pos hle, if_pos ((entryLe_congr ha hbb').mpr hle)]
      exact .cons ha (.cons hbb' htail)
    · rw [if_neg hle, if_neg (fun hc => hle ((entryLe_congr ha hbb').mp hc))]
      exact .cons hbb' (ih ha)

theorem insertionSort_forall₂ {names : List String} :
    ∀ {l l' : List FS}, List.Forall₂ (PruneRel names) l l' →
      List.Forall₂ (PruneRel names) (sortEntries l) (sortEntries l') := by
  intro l l' h
  induction h with
  | nil => exact .nil
  | cons hee' htail ih => exact orderedInsert_forall₂ ih hee'

theorem filterLevel_cons (ds gs rp : List String) (e : FS) (es : List FS) :
    filterLevel ds gs rp (e :: es)
      = match _should_skip (rp ++ [e.name]) e.is_dir ds gs with
        | .error u => .error u
        | .ok skip =>
          match filterLevel ds gs rp es with
          | .error u => .error u
          | .ok rest => .ok (if skip then rest else e :: rest) := by
  rw [filterLevel]

theorem filterLevel_ok_not_contains :
    ∀ {ds gs rp : List String} {l f : List FS},
      filterLevel ds gs rp l = .ok f → ∀ e ∈ f, ds.contains e.name = false := by
  intro ds gs rp l
  induction l with
  | nil =>
    intro f h e he
    simp only [filterLevel, Except.ok.injEq] at h
    rw [← h] at he
    cases he
  | cons x es ih =>
    intro f h e he
    rw [filterLevel_cons] at h
    cases hs : _should_skip (rp ++ [x.name]) x.is_dir ds gs with
    | error u => rw [hs] at h; cases h
    | ok skip =>
      rw [hs] at h
      cases hr : filterLevel ds gs rp es with
      | error u => rw [hr] at h; cases h
      | ok rest =>
        rw [hr] at h
        simp only [Except.ok.injEq] at h
        rw [← h] at he
        cases skip with
        | true =>
          simp only [if_true] at he
          exact ih hr e he
        | false =>
          simp only [Bool.false_eq_true, if_false] at he
          rcases List.mem_cons.mp he with rfl | he2
          · have hany := should_skip_ok_false_not_contains hs
            by_contra hc
            rw [Bool.not_eq_false] at hc
            have : (rp ++ [e.name]).any (fun p => ds.contains p) = true :=
              List.any_eq_true.mpr ⟨e.name, by simp, hc⟩
            rw [this] at hany
            cases hany
          · exact ih hr e he2

theorem filterLevel_pruneList (ds gs rp : List String) :
    ∀ (l : List FS),
      filterLevel ds gs rp (pruneList ds l)
        = Except.map (pruneList ds) (filterLevel ds gs rp l) := by
  intro l
  induction l with
  | nil =>
    rw [pruneList_nil_eq]
    simp only [filterLevel]
    simp [Except.map, pruneList_nil_eq]
  | cons e es ih =>
    rw [pruneList_cons_eq]
    cases hpe : pruneFS ds e with
    | none =>
      have hc : ds.contains e.name = true := pruneFS_none_iff.mp hpe
      have hskip : _should_skip (rp ++ [e.name]) e.is_dir ds gs = .ok true :=
        should_skip_of_mem _ _ _ _ e.name (by simp) (List.elem_iff.mp hc)
      rw [ih, filterLevel_cons, hskip]
      cases hres : filterLevel ds gs rp es with
      | error u => rfl
      | ok rest => rfl
    | some e' =>
      have hname := @pruneRel_name ds _ _ hpe
      have hdir := @pruneRel_is_dir ds _ _ hpe
      rw [filterLevel_cons, filterLevel_cons, hname, hdir, ih]
      cases hsk : _should_skip (rp ++ [e.name]) e.is_dir ds gs with
      | error u => rfl
      | ok skip =>
        cases hres : filterLevel ds gs rp es with
        | error u => rfl
        | ok rest =>
          cases skip with
          | true => rfl
          | false =>
            show Except.ok (e' :: pruneList ds rest) = .ok (pruneList ds (e :: rest))
            rw [pruneList_cons_eq, hpe]

theorem renderSorted_congr (fuel : Nat) (maxD : Int) (ds gs : List String)
    (IH : ∀ (oc : Option (List FS)) (rp : List String) (pref : String) (depth : Int),
        sizeOf oc ≤ fuel →
        walk maxD ds gs (pruneContents ds oc) rp pref depth
          = walk maxD ds gs oc rp pref depth) :
    ∀ {l l' : List FS}, List.Forall₂ (PruneRel ds) l l' → sizeOf l ≤ fuel →
      ∀ (rp : List String) (pref : String) (depth : Int),
        renderSorted maxD ds gs l' rp pref depth
          = renderSorted maxD ds gs l rp pref depth := by
  intro l l' h
  induction h with
  | nil => intro _ rp pref depth; rfl
  | @cons e e' tl tl' hee' htail ih =>
    intro hsz rp pref depth
    have hlen : tl'.isEmpty = tl.isEmpty := by
      have hl := htail.length_eq
      cases tl <;> cases tl' <;> simp_all
    cases e with
    | file n =>
      have he2 : e' = .file n := pruneRel_file hee'
      subst he2
      rw [renderSorted_cons_file, renderSorted_cons_file, hlen,
        ih (by simp only [List.cons.sizeOf_spec] at hsz ⊢; omega) rp pref depth]
    | dir n oc =>
      have he2 : e' = .dir n (pruneContents ds oc) := pruneRel_dir hee'
      subst he2
      rw [renderSorted_cons_dir, renderSorted_cons_dir, hlen]
      rw [IH oc (rp ++ [n]) (pref ++ (if tl.isEmpty then "    " else "│   ")) (depth + 1)
        (by simp only [List.cons.sizeOf_spec, FS.dir.sizeOf_spec] at hsz ⊢; omega)]
      rw [ih (by simp only [List.cons.sizeOf_spec] at hsz ⊢; omega) rp pref depth]

theorem walk_pruneContents :
    ∀ (fuel : Nat) (maxD : Int) (ds gs : List String) (oc : Option (List FS))
      (rp : List String) (pref : String) (depth : Int), sizeOf oc ≤ fuel →
      walk maxD ds gs (pruneContents ds oc) rp pref depth
        = walk maxD ds gs oc rp pref depth := by
  intro fuel
  induction fuel with
  | zero =>
    intro maxD ds gs oc rp pref depth h
    exfalso
    cases oc <;> simp at h
  | succ fuel ih =>
    intro maxD ds gs oc rp pref depth hsz
    by_cases hd : maxD ≤ depth
    · rw [walk_stop hd, walk_stop hd]
    · cases oc with
      | none => rw [pruneContents_none_eq]
      | some entries =>
        rw [pruneContents_some_eq, walk_some hd, walk_some hd, filterLevel_pruneList]
        cases hres : filterLevel ds gs rp entries with
        | error u => rfl
        | ok f =>
          show renderSorted maxD ds gs (sortEntries (pruneList ds f)) rp pref depth
              = renderSorted maxD ds gs (sortEntries f) rp pref depth
          have hsurv : ∀ e ∈ f, ds.contains e.name = false :=
            filterLevel_ok_not_contains hres
          have hrelS := insertionSort_forall₂ (forall₂_pruneList hsurv)
          refine renderSorted_congr fuel maxD ds gs
            (fun oc' rp' pref' depth' h' => ih maxD ds gs oc' rp' pref' depth' h')
            hrelS ?_ rp pref depth
          rw [sortEntries_sizeOf_eq]
          have h1 := sublist_sizeOf_le (filterLevel_sublist hres)
          simp only [Option.some.sizeOf_spec] at hsz
          omega

/-- C7: the exclusion filter skips any path one of whose components
equals an excluded name, for files and directories alike (first
conjunct); consequently rendering is invariant under deleting, at every
nesting depth, every entry whose name is excluded together with its
whole subtree — the walk never lists such an entry and never descends
into it (second conjunct). -/
theorem excluded_names_prune_invariance :
    (∀ (parts : List String) (d : Bool) (ds gs : List String) (part : String),
        part ∈ parts → part ∈ ds → _should_skip parts d ds gs = .ok true)
    ∧ (∀ (label : String) (oc : Option (List FS)) (max_depth : Int)
        (ds gs : List String),
        build_tree_lines label (pruneContents ds oc) max_depth ds gs
          = build_tree_lines label oc max_depth ds gs) := by
  refine ⟨should_skip_of_mem, ?_⟩
  intro label oc maxD ds gs
  unfold build_tree_lines
  rw [walk_pruneContents (sizeOf oc) maxD ds gs oc [] "" 0 (Nat.le_refl _)]

/-- Witness for C7's theorem at a concrete input (discharging the
membership hypotheses of the first conjunct). -/
theorem excluded_names_prune_invariance_witness :
    _should_skip ["src", "node_modules", "x.js"] false ["node_modules"] [] = .ok true :=
  excluded_names_prune_invariance.1 ["src", "node_modules", "x.js"] false
    ["node_modules"] [] "node_modules" (by decide) (by decide)

end Snapshot
